import Mathlib

/-!
A shallow embedding of the `hmux` routing library (Go) and proofs of its
specification claims.

Modelling choices, all mirroring the source files `mux.go` and the Group
file one-to-one:

* A handler (`http.Handler`) is opaque to this library: everything is
  polymorphic in a type `H` of handlers; a middleware is `H → H`.
  For claims about execution order we instantiate `H` with the trace a
  handler emits when invoked (`List String`).
* Go strings are modelled as `List Char` (`Str`); `strings.Cut s " "`,
  `strings.TrimSuffix s "/"` and `strings.HasPrefix s "/"` become direct
  recursions/tests on the character list.
* A possibly-nil middleware value (`func(http.Handler) http.Handler` that
  may be `nil`) is `Option (H → H)`; `Use` receives those and validates.
* `panic` is modelled by `Except String`: `Except.error msg` is a panic
  with that message, and — exactly as in the Go code, which validates all
  arguments before any mutation — an erroring call produces no new state,
  so the caller's state is left untouched.
* The mutable `http.ServeMux` owned by the root `Mux` is the registration
  sink: a list of `(pattern, wrapped handler)` pairs, stored in the `Mux`.
  A Go method that mutates its receiver becomes a function returning the
  updated value; a `Group` holds no sink of its own (as in the source,
  where `Group.Handle` writes through `g.mux.mux`), so `Group.Handle`
  takes the root `Mux` state and returns its update.
-/

set_option linter.dupNamespace false

namespace Hmux

/-- Go strings, modelled as their character lists. -/
abbrev Str := List Char

/-- `wrap` from mux.go: applies middleware to a handler in reverse order
(the Go loop runs `i` from `len(mw)-1` down to `0`, doing `h = mw[i](h)`),
producing the onion model where the first middleware in the slice is the
outermost layer. -/
def wrap {H : Type} (h : H) (mw : List (H → H)) : H :=
  match mw with
  | [] => h
  | m :: rest => m (wrap h rest)

/-- `Chain` from mux.go: composes multiple middleware into a single
middleware function `func(h http.Handler) http.Handler { return wrap(h, mw) }`. -/
def Chain {H : Type} (mw : List (H → H)) : H → H :=
  fun h => wrap h mw

/-- `strings.Cut(s, " ")`: splits around the first space; `none` when the
string has no space, otherwise `some (before, after)`. -/
def cutSpace : Str → Option (Str × Str)
  | [] => none
  | c :: rest =>
    if c = ' ' then some ([], rest)
    else
      match cutSpace rest with
      | none => none
      | some (a, b) => some (c :: a, b)

/-- The nine recognized HTTP method tokens from the `switch` in
`splitMethodPath` (`http.MethodGet`, ..., `http.MethodTrace`). -/
def httpMethods : List Str :=
  ["GET".toList, "POST".toList, "PUT".toList, "DELETE".toList, "PATCH".toList,
   "HEAD".toList, "OPTIONS".toList, "CONNECT".toList, "TRACE".toList]

/-- `splitMethodPath` from mux.go: separates an optional HTTP method token
from the path portion of a pattern. -/
def splitMethodPath (pat : Str) : Str × Str :=
  match cutSpace pat with
  | none => ([], pat)
  | some (method, path) =>
    if method ∈ httpMethods then (method, path) else ([], pat)

/-- `strings.TrimSuffix(s, "/")`: removes one trailing `/` when present. -/
def trimTrailingSlash (s : Str) : Str :=
  if s.getLast? = some '/' then s.dropLast else s

/-- `joinPattern` from mux.go: combines a group prefix with a handler
pattern, handling method tokens. -/
def joinPattern (pfx pat : Str) : Str :=
  let mp := splitMethodPath pat
  let pfx2 := trimTrailingSlash pfx
  let path := if mp.2.head? = some '/' then mp.2 else '/' :: mp.2
  let joined := pfx2 ++ path
  if mp.1 ≠ [] then mp.1 ++ ' ' :: joined else joined

/-- The root `Mux` of mux.go: its `http.ServeMux` is the registration sink
(list of pattern/wrapped-handler pairs, in registration order), plus the
middleware slice. -/
structure Mux (H : Type) where
  sink : List (Str × H)
  middleware : List (H → H)

/-- A `Group`: a prefix and an independent copy of middleware (the source's
`mux *Mux` back-reference is modelled by passing the root state to
`Group.Handle` explicitly). -/
structure Group (H : Type) where
  pfx : Str
  middleware : List (H → H)

/-- `New()` from mux.go. -/
def Mux.New (H : Type) : Mux H := ⟨[], []⟩

/-- The panic message of `Use` (both `Mux.Use` and `Group.Use`). -/
def nilMiddlewareMsg : String := "hmux: nil middleware passed to Use"

/-- The panic message of `Group` (both `Mux.Group` and `Group.Group`). -/
def badPrefixMsg : String := "hmux: group prefix must be empty or start with /"

/-- The validation loop of `Use`: checks every element is non-nil (first
nil panics), yielding the underlying functions. -/
def checkMw {H : Type} : List (Option (H → H)) → Except String (List (H → H))
  | [] => Except.ok []
  | none :: _ => Except.error nilMiddlewareMsg
  | some f :: rest => (checkMw rest).map fun fs => f :: fs

/-- `Mux.Handle`: registers `(pattern, m.wrap(handler))` into the sink.
The pattern is passed to `http.ServeMux.Handle` unchanged. -/
def Mux.Handle {H : Type} (m : Mux H) (pat : Str) (handler : H) : Mux H :=
  { m with sink := m.sink ++ [(pat, wrap handler m.middleware)] }

/-- `Mux.HandleFunc`: delegates to `Mux.Handle`. -/
def Mux.HandleFunc {H : Type} (m : Mux H) (pat : Str) (handler : H) : Mux H :=
  m.Handle pat handler

/-- `Mux.Use`: validates all arguments (panicking on a nil), then appends
them all to the middleware slice. -/
def Mux.Use {H : Type} (m : Mux H) (mw : List (Option (H → H))) :
    Except String (Mux H) :=
  (checkMw mw).map fun fs => { m with middleware := m.middleware ++ fs }

/-- `Mux.Group`: validates the prefix, then builds a `Group` with that
prefix and an independent copy of the current middleware. -/
def Mux.Group {H : Type} (m : Mux H) (p : Str) : Except String (Hmux.Group H) :=
  if p ≠ [] ∧ ¬ p.head? = some '/' then Except.error badPrefixMsg
  else Except.ok { pfx := p, middleware := m.middleware }

/-- `Group.Handle`: registers `(joinPattern(g.prefix, pattern),
wrap(handler, g.middleware))` into the root's sink (`g.mux.mux.Handle`). -/
def Group.Handle {H : Type} (g : Hmux.Group H) (m : Mux H) (pat : Str) (handler : H) :
    Mux H :=
  { m with sink := m.sink ++ [(joinPattern g.pfx pat, wrap handler g.middleware)] }

/-- `Group.HandleFunc`: delegates to `Group.Handle`. -/
def Group.HandleFunc {H : Type} (g : Hmux.Group H) (m : Mux H) (pat : Str) (handler : H) :
    Mux H :=
  g.Handle m pat handler

/-- `Group.Use`: validates all arguments, then appends them to this
group's middleware slice. -/
def Group.Use {H : Type} (g : Hmux.Group H) (mw : List (Option (H → H))) :
    Except String (Hmux.Group H) :=
  (checkMw mw).map fun fs => { g with middleware := g.middleware ++ fs }

/-- `Group.Group`: validates the prefix, then builds a nested group with
joined prefix and an independent copy of this group's middleware. -/
def Group.Group {H : Type} (g : Hmux.Group H) (p : Str) : Except String (Hmux.Group H) :=
  if p ≠ [] ∧ ¬ p.head? = some '/' then Except.error badPrefixMsg
  else Except.ok { pfx := joinPattern g.pfx p, middleware := g.middleware }

/-- `Group.With`: `newG := g.Group(""); newG.Use(mw...); return newG`. -/
def Group.With {H : Type} (g : Hmux.Group H) (mw : List (Option (H → H))) :
    Except String (Hmux.Group H) :=
  (g.Group []).bind fun g2 => g2.Use mw

/-- `Mux.With`: `g := m.Group(""); g.Use(mw...); return g`. -/
def Mux.With {H : Type} (m : Mux H) (mw : List (Option (H → H))) :
    Except String (Hmux.Group H) :=
  (m.Group []).bind fun g => g.Use mw

/-- A tracing middleware for stating execution order: handlers are
identified with the trace they emit when invoked, and the middleware with
label `l` emits `l:enter` before and `l:exit` after its inner handler. -/
def traceMw (l : String) : List String → List String :=
  fun t => (l ++ ":enter") :: t ++ [l ++ ":exit"]

/-- Derivation of scopes from a root: every `Group` value obtainable from
the root by `Group`, `With`, nested `Group`/`With` and `Use` calls. -/
inductive Reaches {H : Type} (m : Mux H) : Hmux.Group H → Prop where
  | group (p : Str) (g : Hmux.Group H) : m.Group p = Except.ok g → Reaches m g
  | withRoot (mw : List (Option (H → H))) (g : Hmux.Group H) :
      m.With mw = Except.ok g → Reaches m g
  | sub (g : Hmux.Group H) (p : Str) (g2 : Hmux.Group H) :
      Reaches m g → g.Group p = Except.ok g2 → Reaches m g2
  | used (g : Hmux.Group H) (mw : List (Option (H → H))) (g2 : Hmux.Group H) :
      Reaches m g → g.Use mw = Except.ok g2 → Reaches m g2
  | withSub (g : Hmux.Group H) (mw : List (Option (H → H))) (g2 : Hmux.Group H) :
      Reaches m g → g.With mw = Except.ok g2 → Reaches m g2

/-! ### Helper lemmas -/

theorem wrap_append {H : Type} (h : H) (xs ys : List (H → H)) :
    wrap h (xs ++ ys) = wrap (wrap h ys) xs := by
  induction xs with
  | nil => rfl
  | cons m rest ih => simp [wrap, ih]

theorem wrap_traceMw (ls : List String) (h0 : List String) :
    wrap h0 (ls.map traceMw) =
      ls.map (fun l => l ++ ":enter") ++ h0 ++ ls.reverse.map (fun l => l ++ ":exit") := by
  induction ls with
  | nil => simp [wrap]
  | cons l rest ih => simp [wrap, traceMw, ih]

theorem cutSpace_sound : ∀ (s a b : Str), cutSpace s = some (a, b) → s = a ++ ' ' :: b
  | [], a, b, h => by simp [cutSpace] at h
  | c :: rest, a, b, h => by
    by_cases hc : c = ' '
    · subst hc
      simp [cutSpace] at h
      obtain ⟨rfl, rfl⟩ := h
      rfl
    · simp only [cutSpace, if_neg hc] at h
      cases hcut : cutSpace rest with
      | none => rw [hcut] at h; cases h
      | some ab =>
        rw [hcut] at h
        obtain ⟨a2, b2⟩ := ab
        simp only [Option.some.injEq, Prod.mk.injEq] at h
        obtain ⟨rfl, rfl⟩ := h
        simp [cutSpace_sound rest a2 b2 hcut]

theorem cutSpace_of_no_space : ∀ (s : Str), ' ' ∉ s → cutSpace s = none
  | [], _ => rfl
  | c :: rest, hs => by
    have hc : ¬ c = ' ' := by
      intro h
      subst h
      exact hs (List.mem_cons_self _ _)
    have hr : ' ' ∉ rest := fun h => hs (List.mem_cons_of_mem c h)
    simp only [cutSpace, if_neg hc, cutSpace_of_no_space rest hr]

theorem cutSpace_append (a b : Str) (ha : ' ' ∉ a) :
    cutSpace (a ++ ' ' :: b) = some (a, b) := by
  induction a with
  | nil => simp [cutSpace]
  | cons c rest ih =>
    have hc : ¬ c = ' ' := by
      intro h
      subst h
      exact ha (List.mem_cons_self _ _)
    have hr : ' ' ∉ rest := fun h => ha (List.mem_cons_of_mem c h)
    simp only [List.cons_append, cutSpace, if_neg hc]
    rw [show cutSpace (rest.append (' ' :: b)) = some (rest, b) from ih hr]

theorem checkMw_map_some {H : Type} (fs : List (H → H)) :
    checkMw (fs.map some) = Except.ok fs := by
  induction fs with
  | nil => rfl
  | cons f rest ih => simp [checkMw, ih, Except.map]

theorem checkMw_error_of_none {H : Type} (mws : List (Option (H → H)))
    (hm : none ∈ mws) : checkMw mws = Except.error nilMiddlewareMsg := by
  induction mws with
  | nil => simp at hm
  | cons o rest ih =>
    cases o with
    | none => rfl
    | some f =>
      simp at hm
      simp [checkMw, ih hm, Except.map]

theorem trimTrailingSlash_concat (x : Str) :
    trimTrailingSlash (x ++ ['/']) = x := by
  simp [trimTrailingSlash]

theorem joinPattern_empty_pat (q : Str) :
    joinPattern q [] = trimTrailingSlash q ++ ['/'] := rfl

theorem joinPattern_trim_slash (q pat : Str) :
    joinPattern (trimTrailingSlash q ++ ['/']) pat = joinPattern q pat := by
  simp [joinPattern, trimTrailingSlash_concat]

theorem splitMethodPath_cases (pat : Str) :
    splitMethodPath pat = ([], pat) ∨
      ∃ m p, splitMethodPath pat = (m, p) ∧ m ≠ [] ∧ pat = m ++ ' ' :: p := by
  cases hc : cutSpace pat with
  | none => exact Or.inl (by simp [splitMethodPath, hc])
  | some ab =>
    obtain ⟨a, b⟩ := ab
    by_cases hm : a ∈ httpMethods
    · have hne : a ≠ [] := by
        simp only [httpMethods, List.mem_cons, List.not_mem_nil, or_false] at hm
        rcases hm with rfl | rfl | rfl | rfl | rfl | rfl | rfl | rfl | rfl <;> decide
      exact Or.inr ⟨a, b, by simp [splitMethodPath, hc, hm], hne, cutSpace_sound pat a b hc⟩
    · exact Or.inl (by simp [splitMethodPath, hc, hm])

theorem joinPattern_nil_left (pat : Str)
    (hp : (splitMethodPath pat).2.head? = some '/') :
    joinPattern [] pat = pat := by
  rcases splitMethodPath_cases pat with hs | ⟨m, p, hs, hm, hpat⟩
  · rw [hs] at hp
    simp at hp
    simp [joinPattern, hs, hp, trimTrailingSlash]
  · rw [hs] at hp
    simp at hp
    conv_rhs => rw [hpat]
    simp [joinPattern, hs, hp, hm, trimTrailingSlash]

theorem Mux.Use_map_some {H : Type} (m : Mux H) (fs : List (H → H)) :
    m.Use (fs.map some) = Except.ok ⟨m.sink, m.middleware ++ fs⟩ := by
  simp [Mux.Use, checkMw_map_some, Except.map]

theorem Group.Use_append_some {H : Type} (g : Hmux.Group H) (fs : List (H → H)) :
    g.Use (fs.map some) = Except.ok ⟨g.pfx, g.middleware ++ fs⟩ := by
  simp [Group.Use, checkMw_map_some, Except.map]

theorem Mux.Use_ok_sink {H : Type} (m : Mux H) (mws : List (Option (H → H)))
    (m' : Mux H) (hm : m.Use mws = Except.ok m') : m'.sink = m.sink := by
  unfold Mux.Use at hm
  cases hc : checkMw mws with
  | error e => rw [hc] at hm; simp [Except.map] at hm
  | ok fs =>
    rw [hc] at hm
    simp [Except.map] at hm
    rw [show m' = ⟨m.sink, m.middleware ++ fs⟩ from hm.symm]

theorem Mux.Group_ok {H : Type} (m : Mux H) (p : Str) (g : Hmux.Group H)
    (hg : m.Group p = Except.ok g) : g = ⟨p, m.middleware⟩ := by
  unfold Mux.Group at hg
  split at hg
  · simp at hg
  · exact (Except.ok.inj hg).symm

theorem Group.sub_ok {H : Type} (g : Hmux.Group H) (p : Str) (g2 : Hmux.Group H)
    (hg : g.Group p = Except.ok g2) : g2 = ⟨joinPattern g.pfx p, g.middleware⟩ := by
  unfold Group.Group at hg
  split at hg
  · simp at hg
  · exact (Except.ok.inj hg).symm

theorem Group.Use_ok {H : Type} (g : Hmux.Group H) (mws : List (Option (H → H)))
    (g2 : Hmux.Group H) (hg : g.Use mws = Except.ok g2) :
    ∃ fs, checkMw mws = Except.ok fs ∧ g2 = ⟨g.pfx, g.middleware ++ fs⟩ := by
  unfold Group.Use at hg
  cases hc : checkMw mws with
  | error e => rw [hc] at hg; simp [Except.map] at hg
  | ok fs =>
    rw [hc] at hg
    simp [Except.map] at hg
    exact ⟨fs, rfl, hg.symm⟩

theorem Group.ephemeral_ok {H : Type} (g : Hmux.Group H) (mws : List (Option (H → H)))
    (g2 : Hmux.Group H) (hg : g.With mws = Except.ok g2) :
    ∃ fs, checkMw mws = Except.ok fs ∧
      g2 = ⟨trimTrailingSlash g.pfx ++ ['/'], g.middleware ++ fs⟩ := by
  unfold Group.With at hg
  cases hmid : g.Group [] with
  | error e => rw [hmid] at hg; simp [Except.bind] at hg
  | ok gmid =>
    rw [hmid] at hg
    simp [Except.bind] at hg
    have hmid2 := Group.sub_ok g [] gmid hmid
    obtain ⟨fs, hfs, hg2⟩ := Group.Use_ok gmid mws g2 hg
    exact ⟨fs, hfs, by rw [hg2, hmid2]; simp [joinPattern_empty_pat]⟩

theorem Mux.With_ok {H : Type} (m : Mux H) (mws : List (Option (H → H)))
    (g : Hmux.Group H) (hg : m.With mws = Except.ok g) :
    ∃ fs, checkMw mws = Except.ok fs ∧ g = ⟨[], m.middleware ++ fs⟩ := by
  unfold Mux.With at hg
  cases hmid : m.Group [] with
  | error e => rw [hmid] at hg; simp [Except.bind] at hg
  | ok gmid =>
    rw [hmid] at hg
    simp [Except.bind] at hg
    have hmid2 := Mux.Group_ok m [] gmid hmid
    obtain ⟨fs, hfs, hg2⟩ := Group.Use_ok gmid mws g hg
    exact ⟨fs, hfs, by rw [hg2, hmid2]⟩

/-! ### Claim theorems -/

/-- C1: `wrap(H, mw)` applies the middleware iterating from the last list
element to the first, so the first element is the outermost wrapper: the
composite handler runs the pre-logic of `m1, ..., mN` in list order, then
the handler, then the post-logic in reverse order `mN, ..., m1` (shown with
tracing middleware, where a handler is the trace it emits); for the empty
list, `wrap` returns the handler unchanged. -/
theorem wrap_onion_order :
    (∀ (H : Type) (h : H), wrap h [] = h) ∧
    (∀ (ls : List String) (h0 : List String),
      wrap h0 (ls.map traceMw) =
        ls.map (fun l => l ++ ":enter") ++ h0 ++ ls.reverse.map (fun l => l ++ ":exit")) ∧
    wrap ["handler"] [traceMw "A", traceMw "B", traceMw "C"] =
      ["A:enter", "B:enter", "C:enter", "handler", "C:exit", "B:exit", "A:exit"] :=
  ⟨fun _ _ => rfl, wrap_traceMw, by decide⟩

/-- C3: `Chain mw` applied to a handler is exactly `wrap h mw` — same
handler, hence the same onion execution order — and a precomposed chain
can be used as a single element inside another middleware list: wrapping
with `xs ++ [Chain mws] ++ ys` behaves as `xs`, then `mws`, then `ys`
around the handler. -/
theorem Chain_equiv_wrap :
    (∀ (H : Type) (mws : List (H → H)) (h : H), Chain mws h = wrap h mws) ∧
    (∀ (H : Type) (mws xs ys : List (H → H)) (h : H),
      wrap h (xs ++ Chain mws :: ys) = wrap (wrap (wrap h ys) mws) xs) :=
  ⟨fun _ _ _ => rfl, fun _ mws xs ys h => by rw [wrap_append]; rfl⟩

/-- C5: `joinPattern` splits the pattern via `splitMethodPath`, strips at
most one trailing `/` from the prefix, prepends `/` to the path when
missing, concatenates, and re-prepends the method token; it is pure and
total, and satisfies the five required edge cases exactly (the sixth
conjunct shows only a single trailing slash is stripped). -/
theorem joinPattern_spec :
    (∀ (pfx pat : Str),
      joinPattern pfx pat =
        (if (splitMethodPath pat).1 ≠ [] then
          (splitMethodPath pat).1 ++ ' ' ::
            (trimTrailingSlash pfx ++
              (if (splitMethodPath pat).2.head? = some '/' then (splitMethodPath pat).2
               else '/' :: (splitMethodPath pat).2))
         else
          trimTrailingSlash pfx ++
            (if (splitMethodPath pat).2.head? = some '/' then (splitMethodPath pat).2
             else '/' :: (splitMethodPath pat).2))) ∧
    joinPattern "/".toList "/test".toList = "/test".toList ∧
    joinPattern "".toList "/users".toList = "/users".toList ∧
    joinPattern "/api/".toList "/users".toList = "/api/users".toList ∧
    joinPattern "/api".toList "GET /users".toList = "GET /api/users".toList ∧
    joinPattern "/api".toList "users".toList = "/api/users".toList ∧
    joinPattern "/api//".toList "/x".toList = "/api//x".toList :=
  ⟨fun _ _ => rfl, by decide, by decide, by decide, by decide, by decide, by decide⟩

/-- C6: `splitMethodPath` splits on the first space: no space gives an
empty method and the whole string as path; a recognized method token
(exact, case-sensitive match among the nine) gives that method and the
remainder after the first space; any other token gives an empty method and
the original string unchanged, with the token and its space left fused
into the path. -/
theorem splitMethodPath_spec :
    (∀ (s : Str), ' ' ∉ s → splitMethodPath s = ([], s)) ∧
    (∀ (m p : Str), m ∈ httpMethods → splitMethodPath (m ++ ' ' :: p) = (m, p)) ∧
    (∀ (a b : Str), ' ' ∉ a → a ∉ httpMethods →
      splitMethodPath (a ++ ' ' :: b) = ([], a ++ ' ' :: b)) := by
  refine ⟨fun s hs => ?_, fun m p hm => ?_, fun a b ha hm => ?_⟩
  · simp [splitMethodPath, cutSpace_of_no_space s hs]
  · have hsp : ' ' ∉ m := by
      simp only [httpMethods, List.mem_cons, List.not_mem_nil, or_false] at hm
      rcases hm with rfl | rfl | rfl | rfl | rfl | rfl | rfl | rfl | rfl <;> decide
    simp [splitMethodPath, cutSpace_append m p hsp, hm]
  · simp [splitMethodPath, cutSpace_append a b ha, hm]

/-- Witness for C6, at the spec's three sample inputs. -/
theorem splitMethodPath_spec_witness :
    splitMethodPath "/x".toList = ([], "/x".toList) ∧
    splitMethodPath ("GET".toList ++ ' ' :: "/x".toList) = ("GET".toList, "/x".toList) ∧
    splitMethodPath ("UNKNOWN".toList ++ ' ' :: "/x".toList) =
      ([], "UNKNOWN".toList ++ ' ' :: "/x".toList) :=
  ⟨splitMethodPath_spec.1 _ (by decide),
   splitMethodPath_spec.2.1 _ _ (by decide),
   splitMethodPath_spec.2.2 _ _ (by decide) (by decide)⟩

/-- C2: a `Group` or `With` scope takes an independent copy of the root's
middleware at creation: after a later `R.Use(B)`, handlers registered on
the earlier-created scope are wrapped with the creation-time list (no `B`),
and a `G.Use(C)` produces middleware with `C` that never enters the list
used for handlers registered directly on the root. -/
theorem scope_isolation (H : Type) (m : Mux H) (p : Str) (g g' gW : Hmux.Group H)
    (m' : Mux H) (B C D : H → H) (pat : Str) (h : H)
    (hg : m.Group p = Except.ok g)
    (hgW : m.With [some D] = Except.ok gW)
    (hm' : m.Use [some B] = Except.ok m')
    (hg' : g.Use [some C] = Except.ok g') :
    g.middleware = m.middleware ∧
    gW.middleware = m.middleware ++ [D] ∧
    m'.middleware = m.middleware ++ [B] ∧
    g'.middleware = m.middleware ++ [C] ∧
    (g.Handle m' pat h).sink = m'.sink ++ [(joinPattern p pat, wrap h m.middleware)] ∧
    (gW.Handle m' pat h).sink =
      m'.sink ++ [(joinPattern [] pat, wrap h (m.middleware ++ [D]))] ∧
    (m'.Handle pat h).sink = m'.sink ++ [(pat, wrap h (m.middleware ++ [B]))] := by
  obtain rfl := Mux.Group_ok m p g hg
  obtain ⟨fsD, hfsD, rfl⟩ := Mux.With_ok m [some D] gW hgW
  obtain rfl : fsD = [D] := by
    have h0 : checkMw [some D] = Except.ok [D] := rfl
    rw [h0] at hfsD
    exact (Except.ok.inj hfsD).symm
  obtain rfl : m' = ⟨m.sink, m.middleware ++ [B]⟩ := by
    have h0 : m.Use [some B] = Except.ok ⟨m.sink, m.middleware ++ [B]⟩ :=
      Mux.Use_map_some m [B]
    rw [h0] at hm'
    exact (Except.ok.inj hm').symm
  obtain ⟨fsC, hfsC, rfl⟩ := Group.Use_ok _ [some C] g' hg'
  obtain rfl : fsC = [C] := by
    have h0 : checkMw [some C] = Except.ok [C] := rfl
    rw [h0] at hfsC
    exact (Except.ok.inj hfsC).symm
  exact ⟨rfl, rfl, rfl, rfl, rfl, rfl, rfl⟩

/-- Witness for C2: a concrete root with no middleware, group `/g`,
`B = Nat.succ`, `C = id`-like, `D` an add-two, handler `0`. -/
theorem scope_isolation_witness :
    (Group.mk "/g".toList ([] : List (Nat → Nat))).middleware = (Mux.New Nat).middleware ∧
    (Group.mk ([] : Str) [fun n => n + 2]).middleware =
      (Mux.New Nat).middleware ++ [fun n => n + 2] ∧
    (Mux.mk ([] : List (Str × Nat)) [Nat.succ]).middleware =
      (Mux.New Nat).middleware ++ [Nat.succ] ∧
    (Group.mk "/g".toList [fun n => n]).middleware =
      (Mux.New Nat).middleware ++ [fun n => n] ∧
    ((Group.mk "/g".toList ([] : List (Nat → Nat))).Handle
        (Mux.mk [] [Nat.succ]) "/x".toList 0).sink =
      (Mux.mk ([] : List (Str × Nat)) [Nat.succ]).sink ++
        [(joinPattern "/g".toList "/x".toList, wrap 0 (Mux.New Nat).middleware)] ∧
    ((Group.mk ([] : Str) [fun n => n + 2]).Handle
        (Mux.mk [] [Nat.succ]) "/x".toList 0).sink =
      (Mux.mk ([] : List (Str × Nat)) [Nat.succ]).sink ++
        [(joinPattern [] "/x".toList,
          wrap 0 ((Mux.New Nat).middleware ++ [fun n => n + 2]))] ∧
    ((Mux.mk ([] : List (Str × Nat)) [Nat.succ]).Handle "/x".toList 0).sink =
      (Mux.mk ([] : List (Str × Nat)) [Nat.succ]).sink ++
        [("/x".toList, wrap 0 ((Mux.New Nat).middleware ++ [Nat.succ]))] :=
  scope_isolation Nat (Mux.New Nat) "/g".toList
    (Group.mk "/g".toList []) (Group.mk "/g".toList [fun n => n])
    (Group.mk [] [fun n => n + 2]) (Mux.mk [] [Nat.succ])
    Nat.succ (fun n => n) (fun n => n + 2) "/x".toList 0 rfl rfl rfl rfl

/-- C4: `Handle` wraps with the middleware list exactly as it stands at
call time: `Use` never touches already-registered entries (the sink is
unchanged by `Use`), a handler registered before `Use X` is wrapped with
the old list, and one registered after is additionally wrapped by `X`
(innermost among the old list's layers: `wrap h (ms ++ [X]) = wrap (X h) ms`).
The same holds on a group scope. -/
theorem use_temporal (H : Type) :
    (∀ (m : Mux H) (mws : List (Option (H → H))) (m' : Mux H),
      m.Use mws = Except.ok m' → m'.sink = m.sink) ∧
    (∀ (m : Mux H) (pat : Str) (h : H),
      (m.Handle pat h).sink = m.sink ++ [(pat, wrap h m.middleware)]) ∧
    (∀ (m : Mux H) (X : H → H) (pat : Str) (h : H),
      m.Use [some X] = Except.ok ⟨m.sink, m.middleware ++ [X]⟩ ∧
      (Mux.Handle ⟨m.sink, m.middleware ++ [X]⟩ pat h).sink =
        m.sink ++ [(pat, wrap (X h) m.middleware)]) ∧
    (∀ (g : Hmux.Group H) (X : H → H) (m : Mux H) (pat : Str) (h : H),
      g.Use [some X] = Except.ok ⟨g.pfx, g.middleware ++ [X]⟩ ∧
      (g.Handle m pat h).sink =
        m.sink ++ [(joinPattern g.pfx pat, wrap h g.middleware)] ∧
      (Group.Handle ⟨g.pfx, g.middleware ++ [X]⟩ m pat h).sink =
        m.sink ++ [(joinPattern g.pfx pat, wrap (X h) g.middleware)]) := by
  refine ⟨Mux.Use_ok_sink, fun m pat h => rfl, fun m X pat h => ⟨Mux.Use_map_some m [X], ?_⟩,
    fun g X m pat h => ⟨Group.Use_append_some g [X], rfl, ?_⟩⟩
  · simp [Mux.Handle, wrap_append, wrap]
  · simp [Group.Handle, wrap_append, wrap]

/-- Witness for C4: a root that already registered `/a` keeps that entry
across `Use Nat.succ`. -/
theorem use_temporal_witness :
    (Mux.mk [("/a".toList, 5)] [Nat.succ]).sink =
      (Mux.mk [("/a".toList, 5)] ([] : List (Nat → Nat))).sink :=
  (use_temporal Nat).1 (Mux.mk [("/a".toList, 5)] []) [some Nat.succ]
    (Mux.mk [("/a".toList, 5)] [Nat.succ]) rfl

/-- C7: `Use` validates before any mutation: any nil element makes the
whole call panic with the nil-middleware message (no state is produced, so
the scope's middleware is untouched); with all elements present it appends
them all in order; and `Group` with a non-empty prefix lacking a leading
`/` panics with the prefix message before any scope is constructed. -/
theorem use_group_validation (H : Type) :
    (∀ (m : Mux H) (mws : List (Option (H → H))),
      none ∈ mws → m.Use mws = Except.error nilMiddlewareMsg) ∧
    (∀ (g : Hmux.Group H) (mws : List (Option (H → H))),
      none ∈ mws → g.Use mws = Except.error nilMiddlewareMsg) ∧
    (∀ (m : Mux H) (fs : List (H → H)),
      m.Use (fs.map some) = Except.ok ⟨m.sink, m.middleware ++ fs⟩) ∧
    (∀ (g : Hmux.Group H) (fs : List (H → H)),
      g.Use (fs.map some) = Except.ok ⟨g.pfx, g.middleware ++ fs⟩) ∧
    (∀ (m : Mux H) (p : Str), p ≠ [] → ¬ p.head? = some '/' →
      m.Group p = Except.error badPrefixMsg) ∧
    (∀ (g : Hmux.Group H) (p : Str), p ≠ [] → ¬ p.head? = some '/' →
      g.Group p = Except.error badPrefixMsg) := by
  refine ⟨fun m mws hm => ?_, fun g mws hm => ?_, Mux.Use_map_some, Group.Use_append_some,
    fun m p h1 h2 => ?_, fun g p h1 h2 => ?_⟩
  · simp [Mux.Use, checkMw_error_of_none mws hm, Except.map]
  · simp [Group.Use, checkMw_error_of_none mws hm, Except.map]
  · simp [Mux.Group, h1, h2]
  · simp [Group.Group, h1, h2]

/-- Witness for C7: a nil middleware panics `Use`; prefix `x` panics `Group`. -/
theorem use_group_validation_witness :
    (Mux.New Nat).Use [none] = Except.error nilMiddlewareMsg ∧
    (Group.mk "/api".toList ([] : List (Nat → Nat))).Use [some Nat.succ, none] =
      Except.error nilMiddlewareMsg ∧
    (Mux.New Nat).Group "x".toList = Except.error badPrefixMsg ∧
    (Group.mk "/api".toList ([] : List (Nat → Nat))).Group "x".toList =
      Except.error badPrefixMsg :=
  ⟨(use_group_validation Nat).1 _ _ (List.mem_cons_self _ _),
   (use_group_validation Nat).2.1 _ _ (List.mem_cons_of_mem _ (List.mem_cons_self _ _)),
   (use_group_validation Nat).2.2.2.2.1 _ _ (by decide) (by decide),
   (use_group_validation Nat).2.2.2.2.2 _ _ (by decide) (by decide)⟩

/-- C8 counterexample: on the root `Mux`, the scope returned by `With`
does NOT register the same full pattern as the root would for every
pattern: for `"users"` (no leading slash) the `With`-scope registers
`"/users"` while the root registers `"users"` unchanged. -/
theorem with_same_pattern_cex :
    (Mux.New Nat).With [] = Except.ok (Group.mk [] []) ∧
    ((Group.mk ([] : Str) ([] : List (Nat → Nat))).Handle
        (Mux.New Nat) "users".toList 0).sink = [("/users".toList, 0)] ∧
    ((Mux.New Nat).Handle "users".toList 0).sink = [("users".toList, 0)] ∧
    ("/users".toList : Str) ≠ "users".toList :=
  ⟨rfl, by decide, by decide, by decide⟩

/-- C8 (amended): `With(mw...)` is exactly "create the zero-length-prefix
sub-scope, call `Use(mw...)` on it, return it"; the returned scope has the
same effective prefix for every pattern when `S` is a `Group`, and — for
the root `Mux` — for every pattern whose path portion starts with `/`;
and `With(A).With(B)` equals `With(A, B)` in resulting middleware (hence
onion order) and effective prefix. -/
theorem with_equiv (H : Type) :
    (∀ (m : Mux H) (mws : List (Option (H → H))),
      m.With mws = (m.Group []).bind fun g => g.Use mws) ∧
    (∀ (g : Hmux.Group H) (mws : List (Option (H → H))),
      g.With mws = (g.Group []).bind fun g2 => g2.Use mws) ∧
    (∀ (g g' : Hmux.Group H) (mws : List (Option (H → H))) (pat : Str),
      g.With mws = Except.ok g' → joinPattern g'.pfx pat = joinPattern g.pfx pat) ∧
    (∀ (m : Mux H) (g : Hmux.Group H) (mws : List (Option (H → H))) (pat : Str),
      m.With mws = Except.ok g → (splitMethodPath pat).2.head? = some '/' →
      joinPattern g.pfx pat = pat) ∧
    (∀ (g g1 g2 g12 : Hmux.Group H) (A B : H → H),
      g.With [some A] = Except.ok g1 → g1.With [some B] = Except.ok g2 →
      g.With [some A, some B] = Except.ok g12 →
      g2.middleware = g12.middleware ∧
        ∀ pat, joinPattern g2.pfx pat = joinPattern g12.pfx pat) ∧
    (∀ (m : Mux H) (g1 g2 g12 : Hmux.Group H) (A B : H → H),
      m.With [some A] = Except.ok g1 → g1.With [some B] = Except.ok g2 →
      m.With [some A, some B] = Except.ok g12 →
      g2.middleware = g12.middleware ∧
        ∀ pat, joinPattern g2.pfx pat = joinPattern g12.pfx pat) := by
  refine ⟨fun m mws => rfl, fun g mws => rfl,
    fun g g' mws pat hw => ?_, fun m g mws pat hw hp => ?_,
    fun g g1 g2 g12 A B h1 h2 h12 => ?_, fun m g1 g2 g12 A B h1 h2 h12 => ?_⟩
  · obtain ⟨fs, _, rfl⟩ := Group.ephemeral_ok g mws g' hw
    exact joinPattern_trim_slash g.pfx pat
  · obtain ⟨fs, _, rfl⟩ := Mux.With_ok m mws g hw
    exact joinPattern_nil_left pat hp
  · obtain ⟨fsA, hfsA, rfl⟩ := Group.ephemeral_ok g [some A] g1 h1
    obtain rfl : fsA = [A] := by
      have h0 : checkMw [some A] = Except.ok [A] := rfl
      rw [h0] at hfsA
      exact (Except.ok.inj hfsA).symm
    obtain ⟨fsB, hfsB, rfl⟩ := Group.ephemeral_ok _ [some B] g2 h2
    obtain rfl : fsB = [B] := by
      have h0 : checkMw [some B] = Except.ok [B] := rfl
      rw [h0] at hfsB
      exact (Except.ok.inj hfsB).symm
    obtain ⟨fsAB, hfsAB, rfl⟩ := Group.ephemeral_ok g [some A, some B] g12 h12
    obtain rfl : fsAB = [A, B] := by
      have h0 : checkMw [some A, some B] = Except.ok [A, B] := rfl
      rw [h0] at hfsAB
      exact (Except.ok.inj hfsAB).symm
    refine ⟨by simp, fun pat => ?_⟩
    simp [trimTrailingSlash_concat]
  · obtain ⟨fsA, hfsA, rfl⟩ := Mux.With_ok m [some A] g1 h1
    obtain rfl : fsA = [A] := by
      have h0 : checkMw [some A] = Except.ok [A] := rfl
      rw [h0] at hfsA
      exact (Except.ok.inj hfsA).symm
    obtain ⟨fsB, hfsB, rfl⟩ := Group.ephemeral_ok _ [some B] g2 h2
    obtain rfl : fsB = [B] := by
      have h0 : checkMw [some B] = Except.ok [B] := rfl
      rw [h0] at hfsB
      exact (Except.ok.inj hfsB).symm
    obtain ⟨fsAB, hfsAB, rfl⟩ := Mux.With_ok m [some A, some B] g12 h12
    obtain rfl : fsAB = [A, B] := by
      have h0 : checkMw [some A, some B] = Except.ok [A, B] := rfl
      rw [h0] at hfsAB
      exact (Except.ok.inj hfsAB).symm
    refine ⟨by simp, fun pat => ?_⟩
    exact joinPattern_trim_slash [] pat

/-- Witness for C8: the root chaining case with `A = B = Nat.succ`, and
the effective-prefix case at pattern `/users`. -/
theorem with_equiv_witness :
    ([Nat.succ, Nat.succ] =
        ((Group.mk ([] : Str) [Nat.succ, Nat.succ]).middleware) ∧
      ∀ pat, joinPattern "/".toList pat =
        joinPattern (Group.mk ([] : Str) [Nat.succ, Nat.succ]).pfx pat) ∧
    joinPattern [] "/users".toList = "/users".toList :=
  ⟨(with_equiv Nat).2.2.2.2.2 (Mux.New Nat)
      (Group.mk [] [Nat.succ]) (Group.mk "/".toList [Nat.succ, Nat.succ])
      (Group.mk [] [Nat.succ, Nat.succ]) Nat.succ Nat.succ rfl rfl rfl,
   (with_equiv Nat).2.2.2.1 (Mux.New Nat) (Group.mk [] []) [] "/users".toList
      rfl (by decide)⟩

/-- C9 counterexample: the un-prefixed root's `Handle` registers the
pattern unchanged, but `joinPattern("", pattern)` is NOT the identity for
every pattern: for `"users"` it yields `"/users"`. -/
theorem root_join_identity_cex :
    ((Mux.New Nat).Handle "users".toList 0).sink = [("users".toList, 0)] ∧
    joinPattern [] "users".toList = "/users".toList ∧
    ("/users".toList : Str) ≠ "users".toList :=
  ⟨by decide, by decide, by decide⟩

/-- C9 (amended): every group scope's `Handle` registers
`(joinPattern(prefix, pattern), wrap(handler, middleware))` into the sink;
the root's `Handle` registers the original pattern unchanged, and this
coincides with `joinPattern("", pattern)` exactly when the pattern's path
portion starts with `/`. -/
theorem handle_registration (H : Type) :
    (∀ (g : Hmux.Group H) (m : Mux H) (pat : Str) (h : H),
      (g.Handle m pat h).sink =
        m.sink ++ [(joinPattern g.pfx pat, wrap h g.middleware)]) ∧
    (∀ (m : Mux H) (pat : Str) (h : H),
      (m.Handle pat h).sink = m.sink ++ [(pat, wrap h m.middleware)]) ∧
    (∀ pat : Str, (splitMethodPath pat).2.head? = some '/' →
      joinPattern [] pat = pat) :=
  ⟨fun _ _ _ _ => rfl, fun _ _ _ => rfl, fun pat hp => joinPattern_nil_left pat hp⟩

/-- Witness for C9 at pattern `GET /users`, whose path part starts with `/`. -/
theorem handle_registration_witness :
    joinPattern [] "GET /users".toList = "GET /users".toList :=
  (handle_registration Nat).2.2 "GET /users".toList (by decide)

/-- C10: every scope reachable from a root by `Group`/`With`/`Use`
derivations registers, via `Handle`/`HandleFunc`, the joined pattern and
wrapped handler into the root's single sink, and never changes the root's
middleware list (`Group` values own no sink of their own: only the root
`Mux` carries one). -/
theorem reachable_scopes_register_in_root (H : Type) (m0 : Mux H)
    (g : Hmux.Group H) (_hr : Reaches m0 g) :
    ∀ (m : Mux H) (pat : Str) (h : H),
      (g.Handle m pat h).sink =
        m.sink ++ [(joinPattern g.pfx pat, wrap h g.middleware)] ∧
      (g.Handle m pat h).middleware = m.middleware ∧
      g.HandleFunc m pat h = g.Handle m pat h :=
  fun _ _ _ => ⟨rfl, rfl, rfl⟩

/-- Witness for C10: the group `/a` of a fresh root is reachable, and its
`Handle` appends to the root's sink without touching root middleware. -/
theorem reachable_scopes_register_in_root_witness :
    ((Group.mk "/a".toList ([] : List (Nat → Nat))).Handle
        (Mux.New Nat) "/x".toList 0).sink =
      (Mux.New Nat).sink ++
        [(joinPattern "/a".toList "/x".toList, wrap 0 ([] : List (Nat → Nat)))] ∧
    ((Group.mk "/a".toList ([] : List (Nat → Nat))).Handle
        (Mux.New Nat) "/x".toList 0).middleware = (Mux.New Nat).middleware ∧
    (Group.mk "/a".toList ([] : List (Nat → Nat))).HandleFunc
        (Mux.New Nat) "/x".toList 0 =
      (Group.mk "/a".toList ([] : List (Nat → Nat))).Handle
        (Mux.New Nat) "/x".toList 0 :=
  reachable_scopes_register_in_root Nat (Mux.New Nat)
    (Group.mk "/a".toList []) (Reaches.group "/a".toList _ rfl)
    (Mux.New Nat) "/x".toList 0

end Hmux
